import Mathlib

/-!
Verification of the snapshot-based change tracker (`src/changes-tracker.ts`).

The development shallowly embeds the JavaScript data model and the tracker:
JavaScript values become the inductive `Value`; the lodash collaborators
`isEqual` and `cloneDeep` are modelled structurally; the recursive differ
`_diffValues`, the registry operations `startTrack`, `peekChanges`,
`updateSnapshots`, `stopTrack` and `stopAllTracks` are translated from the
source.  Property reads and deep copies that may throw in JavaScript are
modelled with `Except Unit` supplied by an environment `Env`.
-/

/-- A JavaScript value as the tracker sees it: `null`, `undefined`, scalars
(booleans, numbers, strings), `Date` objects (by timestamp), arrays, and
plain objects given as association lists of own enumerable fields. -/
inductive Value where
  | vnull
  | vundefined
  | vbool (b : Bool)
  | vnum (n : Int)
  | vstr (s : String)
  | vdate (t : Int)
  | varr (items : List Value)
  | vobj (fields : List (String × Value))

/-- A single change record (`TChange` in the source): the dot/bracket path,
the value from the snapshot and the current value. -/
structure TChange where
  path : String
  oldValue : Value
  newValue : Value

/-- First binding of key `k` in an association list of object fields
(JavaScript property lookup on a plain object). -/
def lookupField : List (String × Value) → String → Option Value
  | [], _ => none
  | (k1, v) :: rest, k => if k1 == k then some v else lookupField rest k

mutual
/-- lodash `isEqual`: structural deep equality. Arrays compare by length and
pointwise; objects compare by key-count plus, for every field of the left
object, presence and equality of the same key on the right. Values of
different kinds are never equal. -/
def isEqual : Value → Value → Bool
  | .vnull, .vnull => true
  | .vundefined, .vundefined => true
  | .vbool a, .vbool b => a == b
  | .vnum a, .vnum b => a == b
  | .vstr a, .vstr b => a == b
  | .vdate a, .vdate b => a == b
  | .varr xs, .varr ys => isEqualList xs ys
  | .vobj fs, .vobj gs => fs.length == gs.length && isEqualFields fs gs
  | _, _ => false

/-- Pointwise `isEqual` on arrays (false when lengths differ). -/
def isEqualList : List Value → List Value → Bool
  | [], [] => true
  | x :: xs, y :: ys => isEqual x y && isEqualList xs ys
  | _, _ => false

/-- For every field of the left object, the right object must own the key
and hold an `isEqual` value. -/
def isEqualFields : List (String × Value) → List (String × Value) → Bool
  | [], _ => true
  | (k, v) :: fs, gs =>
      (match lookupField gs k with
       | some w => isEqual v w
       | none => false) && isEqualFields fs gs
end

mutual
/-- lodash `cloneDeep`: a structural deep copy.  On pure values this is the
identity (proved below as `cloneDeep_id`); it is kept as a separate function
so the embedding mirrors where the source clones. -/
def cloneDeep : Value → Value
  | .vnull => .vnull
  | .vundefined => .vundefined
  | .vbool b => .vbool b
  | .vnum n => .vnum n
  | .vstr s => .vstr s
  | .vdate t => .vdate t
  | .varr xs => .varr (cloneDeepList xs)
  | .vobj fs => .vobj (cloneDeepFields fs)

/-- Deep copy of an array's items. -/
def cloneDeepList : List Value → List Value
  | [] => []
  | x :: xs => cloneDeep x :: cloneDeepList xs

/-- Deep copy of an object's fields. -/
def cloneDeepFields : List (String × Value) → List (String × Value)
  | [] => []
  | (k, v) :: fs => (k, cloneDeep v) :: cloneDeepFields fs
end

/-- Pairwise distinctness of a key list. -/
def nodupKeys : List String → Bool
  | [] => true
  | k :: ks => !ks.contains k && nodupKeys ks

mutual
/-- Well-formedness of a modelled JavaScript value: every object node has
pairwise distinct keys (true of every real JavaScript object, where own
property keys are unique). -/
def wfValue : Value → Bool
  | .varr xs => wfList xs
  | .vobj fs => nodupKeys (fs.map Prod.fst) && wfFields fs
  | _ => true

/-- Well-formedness of a list of array items. -/
def wfList : List Value → Bool
  | [] => true
  | x :: xs => wfValue x && wfList xs

/-- Well-formedness of a list of object fields. -/
def wfFields : List (String × Value) → Bool
  | [] => true
  | (_, v) :: fs => wfValue v && wfFields fs
end

/-- The default `treatAsValue` predicate installed by the constructor when no
option is supplied (source line 81): always `false`. -/
def defaultTreatAsValue : Value → Bool := fun _ => false

/-- Embedding of `_isSpecialTypeOrPrimitive` (source lines 92-105): `null` and every value
with `typeof value !== 'object'` is a primitive; a `Date` is special; otherwise
the constructor-supplied `treatAsValue` predicate decides. -/
def _isSpecialTypeOrPrimitive (treat : Value → Bool) (value : Value) : Bool :=
  match value with
  | .vnull => true
  | .vundefined | .vbool _ | .vnum _ | .vstr _ => true
  | .vdate _ => true
  | .varr _ | .vobj _ => treat value

/-- Embedding of `typeof value === 'object'` in JavaScript: true for `null`, dates, arrays
and plain objects, false for every other value in the model. -/
def typeofIsObject : Value → Bool
  | .vnull | .vdate _ | .varr _ | .vobj _ => true
  | _ => false

/-- Embedding of `Object.keys`: own enumerable keys of an object; for an array, the decimal
strings of its indices; empty for everything else. -/
def jsKeys : Value → List String
  | .vobj fs => fs.map Prod.fst
  | .varr xs => (List.range xs.length).map (fun i => toString i)
  | _ => []

/-- Embedding of `value.hasOwnProperty(k)`: key presence on an object; on an array the
index strings and the non-enumerable `length` property are own properties. -/
def hasOwnProp : Value → String → Bool
  | .vobj fs, k => (lookupField fs k).isSome
  | .varr xs, k =>
      k == "length" || ((List.range xs.length).map (fun i => toString i)).contains k
  | _, _ => false

/-- Embedding of `value[k]` for a string key: field lookup on objects (`undefined` when
absent); on arrays, `length` or the element at the decimal index. -/
def jsGet : Value → String → Value
  | .vobj fs, k => (lookupField fs k).getD .vundefined
  | .varr xs, k =>
      if k == "length" then .vnum xs.length
      else (((xs.enum).find? (fun p => toString p.1 == k)).map Prod.snd).getD .vundefined
  | _, _ => .vundefined

/-- Core of `_diffValues` (source lines 263-400).  The source recursion is
bounded by `maxDepth - currentDepth`; the embedding makes that bound the
structural fuel: `remaining = 0` is exactly the `currentDepth >= maxDepth`
ceiling, and every recursive call of the source increments `currentDepth`
by one, i.e. decrements `remaining`.  Branches in order of the source:
depth ceiling; primitives/special types; arrays (aggregate on length
mismatch, else per-index recursion); `typeof === 'object'` pairs (aggregate
on key-set mismatch, early `[]` on `isEqual`, else per-key recursion over
the old keys); final fallback. -/
def diffGo (treat : Value → Bool) : Nat → Value → Value → String → List TChange
  | 0, oldValue, newValue, currentPath =>
      if !isEqual oldValue newValue then
        [{ path := currentPath, oldValue := cloneDeep oldValue, newValue := cloneDeep newValue }]
      else []
  | remaining + 1, oldValue, newValue, currentPath =>
      let isOldSpecial := _isSpecialTypeOrPrimitive treat oldValue
      let isNewSpecial := _isSpecialTypeOrPrimitive treat newValue
      if isOldSpecial || isNewSpecial then
        if !isEqual oldValue newValue then
          [{ path := currentPath, oldValue := oldValue, newValue := newValue }]
        else []
      else
        match oldValue, newValue with
        | .varr oldItems, .varr newItems =>
            if oldItems.length != newItems.length then
              [{ path := currentPath, oldValue := cloneDeep oldValue,
                 newValue := cloneDeep newValue }]
            else
              ((List.range oldItems.length).map (fun i =>
                diffGo treat remaining (oldItems.getD i .vundefined) (newItems.getD i .vundefined)
                  (currentPath ++ "[" ++ toString i ++ "]"))).flatten
        | _, _ =>
            if typeofIsObject oldValue && typeofIsObject newValue then
              let oldKeys := jsKeys oldValue
              let newKeys := jsKeys newValue
              if oldKeys.length != newKeys.length
                  || oldKeys.any (fun k => !hasOwnProp newValue k) then
                [{ path := currentPath, oldValue := cloneDeep oldValue,
                   newValue := cloneDeep newValue }]
              else if isEqual oldValue newValue then []
              else
                (oldKeys.map (fun key =>
                  diffGo treat remaining (jsGet oldValue key) (jsGet newValue key)
                    (currentPath ++ "." ++ key))).flatten
            else
              if !isEqual oldValue newValue then
                [{ path := currentPath, oldValue := cloneDeep oldValue,
                   newValue := cloneDeep newValue }]
              else []

/-- Embedding of `_diffValues(oldValue, newValue, currentPath, maxDepth, currentDepth)`
with the source signature, delegating to the fuel-structured core. -/
def _diffValues (treat : Value → Bool) (oldValue newValue : Value) (currentPath : String)
    (maxDepth currentDepth : Nat) : List TChange :=
  diffGo treat (maxDepth - currentDepth) oldValue newValue currentPath

/-- Embedding of `ITrackedPropertyInfo` (source lines 27-36): the weak reference is
modelled by the identity (a `Nat`) of the owner object; liveness is decided
by the environment. -/
structure TrackedPropertyInfo where
  parentObjRef : Nat
  property : String
  originalValueSnapshot : Value
  maxDepth : Nat

/-- The world around the tracker: object identities are `Nat`s.  `alive`
says whether a `WeakRef` to the object still dereferences; `typeName` is
`obj.constructor.name`; `readProp` is the property access `obj[property]`,
which may throw (`Except.error`); `cloneOk` says whether `cloneDeep`
succeeds on a value; `treatAsValue` is the constructor-supplied predicate. -/
structure Env where
  alive : Nat → Bool
  typeName : Nat → String
  readProp : Nat → String → Except Unit Value
  cloneOk : Value → Bool
  treatAsValue : Value → Bool

/-- Embedding of `WeakRef.deref()`: the owner when still alive, otherwise `undefined`. -/
def derefRef (env : Env) (ref : Nat) : Option Nat :=
  if env.alive ref then some ref else none

/-- Embedding of `cloneDeep` as the fallible collaborator: throws on values the
environment marks unclonable. -/
def cloneDeepE (env : Env) (v : Value) : Except Unit Value :=
  if env.cloneOk v then .ok (cloneDeep v) else .error ()

/-- The registry `Map<string, ITrackedPropertyInfo>`, as an association
list in insertion order. -/
abbrev Registry := List (String × TrackedPropertyInfo)

/-- Embedding of `Map.get`. -/
def mapGet : Registry → String → Option TrackedPropertyInfo
  | [], _ => none
  | e :: rest, k => if e.1 == k then some e.2 else mapGet rest k

/-- Embedding of `Map.delete`: removes the binding of the key (the first one; a JavaScript
map never holds two bindings of one key). -/
def mapDelete : Registry → String → Registry
  | [], _ => []
  | e :: rest, k => if e.1 == k then rest else e :: mapDelete rest k

/-- Embedding of `Map.set`: replaces the value in place when the key is bound, otherwise
appends the new binding (JavaScript maps keep insertion order). -/
def mapSet : Registry → String → TrackedPropertyInfo → Registry
  | [], k, v => [(k, v)]
  | e :: rest, k, v => if e.1 == k then (k, v) :: rest else e :: mapSet rest k v

/-- The tracker (`ChangesTracker`): its only state is the registry. -/
structure ChangesTracker where
  trackedProperties : Registry

/-- Embedding of `startTrack` (source lines 125-166), in the exception monad.  The initial
read `obj[property]` (line 134) sits OUTSIDE the `try`, so a throwing getter
propagates out of the call; only `cloneDeep` (lines 148-154) is guarded.
Either branch of the stale-entry check deletes the existing binding of the
composite key before the snapshot is taken. -/
def startTrackE (env : Env) (s : ChangesTracker) (obj : Nat) (property : String)
    (maxDepth : Nat) : Except Unit (ChangesTracker × Value) :=
  let propertyName := property
  let propertyKey := env.typeName obj ++ "." ++ propertyName
  -- the read happens outside any try/catch: a throwing getter propagates
  match env.readProp obj property with
  | .error e => .error e
  | .ok currentValue =>
  let afterDelete : Registry :=
    match mapGet s.trackedProperties propertyKey with
    | some existingInfo =>
        if derefRef env existingInfo.parentObjRef = some obj then
          -- already tracking this exact object/property: remove the old entry
          mapDelete s.trackedProperties propertyKey
        else
          -- key exists but the object is different (or the WeakRef cleared)
          mapDelete s.trackedProperties propertyKey
    | none => s.trackedProperties
  match cloneDeepE env currentValue with
  | .error _ =>
      -- cloning failed: return the original value; tracking will not start
      .ok (⟨afterDelete⟩, currentValue)
  | .ok originalValueSnapshot =>
      .ok (⟨mapSet afterDelete propertyKey
              { parentObjRef := obj, property := property,
                originalValueSnapshot := originalValueSnapshot,
                maxDepth := maxDepth }⟩, currentValue)

/-- One pass of `peekChanges` (source lines 177-214) over the registry
entries in order: entries whose owner is gone are dropped; a throwing
property read skips the entry; otherwise the live value is compared with
the snapshot and, when unequal, diffed from depth 0.  Returns the collected
changes and the surviving registry. -/
def peekLoop (env : Env) : Registry → List TChange × Registry
  | [] => ([], [])
  | (propertyKey, trackedInfo) :: rest =>
      let (restChanges, restKept) := peekLoop env rest
      match derefRef env trackedInfo.parentObjRef with
      | none => (restChanges, restKept)
      | some parentObj =>
          match env.readProp parentObj trackedInfo.property with
          | .error _ => (restChanges, (propertyKey, trackedInfo) :: restKept)
          | .ok currentValue =>
              if !isEqual currentValue trackedInfo.originalValueSnapshot then
                (_diffValues env.treatAsValue trackedInfo.originalValueSnapshot currentValue
                    trackedInfo.property trackedInfo.maxDepth 0 ++ restChanges,
                 (propertyKey, trackedInfo) :: restKept)
              else
                (restChanges, (propertyKey, trackedInfo) :: restKept)

/-- Embedding of `peekChanges`: the reported changes together with the tracker after the
call (snapshots untouched, dead entries dropped). -/
def peekChanges (env : Env) (s : ChangesTracker) : List TChange × ChangesTracker :=
  let (allChanges, kept) := peekLoop env s.trackedProperties
  (allChanges, ⟨kept⟩)

/-- One pass of `updateSnapshots` (source lines 221-248): dead owners are
dropped; a throwing read keeps the entry and its old baseline; a failing
clone drops the entry; otherwise the snapshot becomes a deep copy of the
live value. -/
def updateLoop (env : Env) : Registry → Registry
  | [] => []
  | (propertyKey, trackedInfo) :: rest =>
      match derefRef env trackedInfo.parentObjRef with
      | none => updateLoop env rest
      | some parentObj =>
          match env.readProp parentObj trackedInfo.property with
          | .error _ => (propertyKey, trackedInfo) :: updateLoop env rest
          | .ok currentValue =>
              match cloneDeepE env currentValue with
              | .error _ => updateLoop env rest
              | .ok snap =>
                  (propertyKey, { trackedInfo with originalValueSnapshot := snap })
                    :: updateLoop env rest

/-- Embedding of `updateSnapshots`. -/
def updateSnapshots (env : Env) (s : ChangesTracker) : ChangesTracker :=
  ⟨updateLoop env s.trackedProperties⟩

/-- Embedding of `stopTrack` (source lines 412-424): delete the composite key only when
the entry exists and its weak reference still dereferences to the very
object passed in. -/
def stopTrack (env : Env) (s : ChangesTracker) (obj : Nat) (property : String) :
    ChangesTracker :=
  let propertyName := property
  let propertyKey := env.typeName obj ++ "." ++ propertyName
  match mapGet s.trackedProperties propertyKey with
  | some trackedInfo =>
      if derefRef env trackedInfo.parentObjRef = some obj then
        ⟨mapDelete s.trackedProperties propertyKey⟩
      else s
  | none => s

/-- Embedding of `stopAllTracks` (source lines 431-433). -/
def stopAllTracks (_s : ChangesTracker) : ChangesTracker := ⟨[]⟩

/-- A one-hole context: the position of a single leaf inside a nested value,
listed from the tracked property's value downwards.  `arr pre inner post`
is an array node whose element at index `pre.length` continues towards the
leaf; `obj pre k inner post` is an object node whose field `k` continues. -/
inductive Ctx where
  | hole
  | arr (pre : List Value) (inner : Ctx) (post : List Value)
  | obj (pre : List (String × Value)) (k : String) (inner : Ctx) (post : List (String × Value))

/-- Fill the hole of a context with a value. -/
def Ctx.plug : Ctx → Value → Value
  | .hole, v => v
  | .arr pre inner post, v => .varr (pre ++ Ctx.plug inner v :: post)
  | .obj pre k inner post, v => .vobj (pre ++ (k, Ctx.plug inner v) :: post)

/-- Nesting depth of the hole below the tracked property. -/
def Ctx.depth : Ctx → Nat
  | .hole => 0
  | .arr _ inner _ => Ctx.depth inner + 1
  | .obj _ _ inner _ => Ctx.depth inner + 1

/-- The rendered path segments leading to the hole, exactly as `_diffValues`
appends them: `[i]` for an array index, `.k` for an object key. -/
def Ctx.segs : Ctx → List String
  | .hole => []
  | .arr pre inner _ => ("[" ++ toString pre.length ++ "]") :: Ctx.segs inner
  | .obj _ k inner _ => ("." ++ k) :: Ctx.segs inner

/-- The context remaining after descending `n` levels towards the hole
(`hole` once the hole is reached). -/
def Ctx.peel : Ctx → Nat → Ctx
  | c, 0 => c
  | .hole, _ + 1 => .hole
  | .arr _ inner _, n + 1 => Ctx.peel inner n
  | .obj _ _ inner _, n + 1 => Ctx.peel inner n

/-- A context describes a *single-leaf difference* between `plug c a` and
`plug c b` for the differ when: no spine node (with either filling) is
claimed by the `treatAsValue` predicate, the hole's key is not shadowed or
duplicated at its object node, and all off-spine siblings are well-formed. -/
def ctxOk (treat : Value → Bool) : Ctx → Value → Value → Bool
  | .hole, _, _ => true
  | .arr pre inner post, a, b =>
      !treat (.varr (pre ++ Ctx.plug inner a :: post)) &&
      !treat (.varr (pre ++ Ctx.plug inner b :: post)) &&
      wfList pre && wfList post && ctxOk treat inner a b
  | .obj pre k inner post, a, b =>
      !treat (.vobj (pre ++ (k, Ctx.plug inner a) :: post)) &&
      !treat (.vobj (pre ++ (k, Ctx.plug inner b) :: post)) &&
      !(pre.map Prod.fst).contains k && !(post.map Prod.fst).contains k &&
      wfFields pre && wfFields post && ctxOk treat inner a b

/-- Sample world whose every property read throws (a getter that throws on
access); everything else is benign. -/
def envThrowingGetter : Env :=
  { alive := fun _ => true, typeName := fun _ => "Object",
    readProp := fun _ _ => .error (), cloneOk := fun _ => true,
    treatAsValue := defaultTreatAsValue }

/-- Sample world whose every property read yields the given value. -/
def envConstRead (v : Value) : Env :=
  { alive := fun _ => true, typeName := fun _ => "Object",
    readProp := fun _ _ => .ok v, cloneOk := fun _ => true,
    treatAsValue := defaultTreatAsValue }

/-- Keys of the registry are pairwise distinct (the `Map` invariant). -/
def KeysNodup (s : ChangesTracker) : Prop :=
  (s.trackedProperties.map Prod.fst).Nodup

/-- Sample registry entry for property `x` (used by concrete witnesses). -/
def sampleInfoX (owner : Nat) (snap : Value) (m : Nat) : TrackedPropertyInfo :=
  { parentObjRef := owner, property := "x", originalValueSnapshot := snap, maxDepth := m }

/-! ### Lemmas about the lodash collaborators -/

mutual
theorem cloneDeep_id : (v : Value) → cloneDeep v = v
  | .vnull => rfl
  | .vundefined => rfl
  | .vbool _ => rfl
  | .vnum _ => rfl
  | .vstr _ => rfl
  | .vdate _ => rfl
  | .varr xs => by simp only [cloneDeep]; rw [cloneDeepList_id xs]
  | .vobj fs => by simp only [cloneDeep]; rw [cloneDeepFields_id fs]

theorem cloneDeepList_id : (xs : List Value) → cloneDeepList xs = xs
  | [] => rfl
  | x :: xs => by simp only [cloneDeepList]; rw [cloneDeep_id x, cloneDeepList_id xs]

theorem cloneDeepFields_id : (fs : List (String × Value)) → cloneDeepFields fs = fs
  | [] => rfl
  | (k, v) :: fs => by simp only [cloneDeepFields]; rw [cloneDeep_id v, cloneDeepFields_id fs]
end

theorem lookupField_mem : ∀ {fs : List (String × Value)} {k : String} {v : Value},
    lookupField fs k = some v → (k, v) ∈ fs := by
  intro fs
  induction fs with
  | nil => intro k v h; simp [lookupField] at h
  | cons e rest ih =>
      intro k v h
      obtain ⟨k1, w⟩ := e
      simp only [lookupField] at h
      by_cases hk : (k1 == k) = true
      · have hke : k1 = k := by simpa using hk
        rw [if_pos hk] at h
        injection h with hwv
        subst hke
        subst hwv
        exact List.mem_cons_self _ _
      · rw [if_neg hk] at h
        exact List.mem_cons_of_mem _ (ih h)

theorem mem_keys_lookupField_isSome : ∀ {fs : List (String × Value)} {k : String},
    k ∈ fs.map Prod.fst → (lookupField fs k).isSome = true := by
  intro fs
  induction fs with
  | nil => intro k h; simp at h
  | cons e rest ih =>
      intro k h
      obtain ⟨k1, w⟩ := e
      by_cases hk : k1 == k
      · simp [lookupField, hk]
      · simp only [List.map_cons, List.mem_cons] at h
        rcases h with h | h
        · exact absurd (by simpa using h.symm) (by simpa using hk)
        · simp only [lookupField, hk, if_neg]
          exact ih h

theorem lookupField_of_nodup : ∀ {fs : List (String × Value)} {k : String} {v : Value},
    nodupKeys (fs.map Prod.fst) = true → (k, v) ∈ fs → lookupField fs k = some v := by
  intro fs
  induction fs with
  | nil => intro k v _ h; simp at h
  | cons e rest ih =>
      intro k v hnd h
      obtain ⟨k1, w⟩ := e
      simp only [List.map_cons, nodupKeys, Bool.and_eq_true, Bool.not_eq_true'] at hnd
      rcases List.mem_cons.mp h with h | h
      · injection h with h1 h2
        subst h1
        subst h2
        simp [lookupField]
      · have hnotin : k1 ∉ rest.map Prod.fst := by simpa using hnd.1
        have hk1k : (k1 == k) = false := by
          have hne : k1 ≠ k := by
            intro he
            subst he
            exact hnotin (List.mem_map_of_mem Prod.fst h)
          simpa using hne
        simp only [lookupField, hk1k, Bool.false_eq_true, if_false]
        exact ih hnd.2 h

theorem wfList_mem : ∀ {xs : List Value} {x : Value},
    wfList xs = true → x ∈ xs → wfValue x = true := by
  intro xs
  induction xs with
  | nil => intro x _ h; simp at h
  | cons y ys ih =>
      intro x hwf h
      simp only [wfList, Bool.and_eq_true] at hwf
      rcases List.mem_cons.mp h with h | h
      · exact h ▸ hwf.1
      · exact ih hwf.2 h

theorem wfFields_mem : ∀ {fs : List (String × Value)} {k : String} {v : Value},
    wfFields fs = true → (k, v) ∈ fs → wfValue v = true := by
  intro fs
  induction fs with
  | nil => intro k v _ h; simp at h
  | cons e rest ih =>
      intro k v hwf h
      obtain ⟨k1, w⟩ := e
      simp only [wfFields, Bool.and_eq_true] at hwf
      rcases List.mem_cons.mp h with h | h
      · cases h; exact hwf.1
      · exact ih hwf.2 h

theorem wfList_getD {xs : List Value} (hwf : wfList xs = true) (i : Nat) :
    wfValue (xs.getD i .vundefined) = true := by
  by_cases hi : i < xs.length
  · have hmem : xs.getD i .vundefined ∈ xs := by
      rw [List.getD_eq_getElem _ _ hi]
      exact List.getElem_mem hi
    exact wfList_mem hwf hmem
  · rw [List.getD_eq_default _ _ (by omega)]
    rfl

theorem isEqualFields_of_forall : ∀ (fs gs : List (String × Value)),
    (∀ kv ∈ fs, ∃ w, lookupField gs kv.1 = some w ∧ isEqual kv.2 w = true) →
    isEqualFields fs gs = true := by
  intro fs gs
  induction fs with
  | nil => intro _; rfl
  | cons e rest ih =>
      intro h
      obtain ⟨k, v⟩ := e
      obtain ⟨w, hw, he⟩ := h (k, v) (List.mem_cons_self _ _)
      simp only [isEqualFields, hw, he, Bool.true_and]
      exact ih (fun kv hkv => h kv (List.mem_cons_of_mem _ hkv))

mutual
theorem isEqual_refl : (v : Value) → wfValue v = true → isEqual v v = true
  | .vnull, _ => rfl
  | .vundefined, _ => rfl
  | .vbool b, _ => by simp [isEqual]
  | .vnum n, _ => by simp [isEqual]
  | .vstr s, _ => by simp [isEqual]
  | .vdate t, _ => by simp [isEqual]
  | .varr xs, h => by
      simp only [isEqual]
      exact isEqualList_refl xs (by simpa [wfValue] using h)
  | .vobj fs, h => by
      have hnd : nodupKeys (fs.map Prod.fst) = true := by
        have := h
        simp only [wfValue, Bool.and_eq_true] at this
        exact this.1
      have hwf : wfFields fs = true := by
        have := h
        simp only [wfValue, Bool.and_eq_true] at this
        exact this.2
      simp only [isEqual, Bool.and_eq_true, beq_self_eq_true, true_and]
      exact isEqualFields_of_forall fs fs (fun kv hkv =>
        ⟨kv.2, lookupField_of_nodup hnd (by exact hkv),
          isEqualFields_refl_mem fs hwf kv hkv⟩)

theorem isEqualList_refl : (xs : List Value) → wfList xs = true → isEqualList xs xs = true
  | [], _ => rfl
  | x :: xs, h => by
      have hx : wfValue x = true := by
        simp only [wfList, Bool.and_eq_true] at h
        exact h.1
      have hxs : wfList xs = true := by
        simp only [wfList, Bool.and_eq_true] at h
        exact h.2
      simp only [isEqualList, Bool.and_eq_true]
      exact ⟨isEqual_refl x hx, isEqualList_refl xs hxs⟩

theorem isEqualFields_refl_mem : (fs : List (String × Value)) → wfFields fs = true →
    ∀ kv ∈ fs, isEqual kv.2 kv.2 = true
  | [], _ => by intro kv h; simp at h
  | (k, v) :: fs, h => by
      intro kv hkv
      have hv : wfValue v = true := by
        simp only [wfFields, Bool.and_eq_true] at h
        exact h.1
      have hfs : wfFields fs = true := by
        simp only [wfFields, Bool.and_eq_true] at h
        exact h.2
      rcases List.mem_cons.mp hkv with h1 | h1
      · subst h1
        exact isEqual_refl v hv
      · exact isEqualFields_refl_mem fs hfs kv h1
end

theorem isEqualList_length : ∀ {xs ys : List Value},
    isEqualList xs ys = true → xs.length = ys.length := by
  intro xs
  induction xs with
  | nil => intro ys h; cases ys with
      | nil => rfl
      | cons y ys => simp [isEqualList] at h
  | cons x xs ih =>
      intro ys h
      cases ys with
      | nil => simp [isEqualList] at h
      | cons y ys =>
          simp only [isEqualList, Bool.and_eq_true] at h
          simp [ih h.2]

theorem isEqualList_getD : ∀ {xs ys : List Value}, isEqualList xs ys = true →
    ∀ i, isEqual (xs.getD i .vundefined) (ys.getD i .vundefined) = true := by
  intro xs
  induction xs with
  | nil => intro ys h i; cases ys with
      | nil => simp [List.getD_nil]; rfl
      | cons y ys => simp [isEqualList] at h
  | cons x xs ih =>
      intro ys h i
      cases ys with
      | nil => simp [isEqualList] at h
      | cons y ys =>
          simp only [isEqualList, Bool.and_eq_true] at h
          cases i with
          | zero => simpa using h.1
          | succ n => simpa using ih h.2 n

theorem isEqualFields_lookup : ∀ {fs gs : List (String × Value)},
    isEqualFields fs gs = true → ∀ {k v}, (k, v) ∈ fs →
    ∃ w, lookupField gs k = some w ∧ isEqual v w = true := by
  intro fs gs
  induction fs with
  | nil => intro _ k v h; simp at h
  | cons e rest ih =>
      intro h k v hm
      obtain ⟨k1, v1⟩ := e
      simp only [isEqualFields, Bool.and_eq_true] at h
      rcases List.mem_cons.mp hm with h1 | h1
      · injection h1 with hk hv
        subst hk
        subst hv
        rcases hl : lookupField gs k with _ | w
        · rw [hl] at h; simp at h
        · rw [hl] at h
          exact ⟨w, rfl, by simpa using h.1⟩
      · exact ih h.2 h1

theorem flattenMap_nil {α : Type} {β : Type} : ∀ (l : List α) (f : α → List β),
    (∀ x ∈ l, f x = []) → (l.map f).flatten = [] := by
  intro l f
  induction l with
  | nil => intro _; rfl
  | cons x xs ih =>
      intro h
      simp only [List.map_cons, List.flatten_cons, h x (List.mem_cons_self _ _),
        List.nil_append]
      exact ih (fun y hy => h y (List.mem_cons_of_mem _ hy))

theorem flattenMap_range_single {β : Type} : ∀ (n k : Nat) (f : Nat → List β),
    k < n → (∀ i, i ≠ k → f i = []) → ((List.range n).map f).flatten = f k := by
  intro n
  induction n with
  | zero => intro k f hk _; omega
  | succ n ih =>
      intro k f hk h0
      rw [List.range_succ]
      simp only [List.map_append, List.map_cons, List.map_nil, List.flatten_append]
      by_cases hkn : k = n
      · subst hkn
        rw [flattenMap_nil (List.range k) f (fun i hi => h0 i (by
          have := List.mem_range.mp hi
          omega))]
        simp
      · have hlt : k < n := by omega
        rw [ih k f hlt h0, h0 n (by omega)]
        simp

theorem flattenMap_append_single {α : Type} {β : Type} :
    ∀ (l1 l2 : List α) (x : α) (f : α → List β),
    (∀ y ∈ l1, f y = []) → (∀ y ∈ l2, f y = []) →
    ((l1 ++ x :: l2).map f).flatten = f x := by
  intro l1 l2 x f h1 h2
  simp only [List.map_append, List.map_cons, List.flatten_append, List.flatten_cons]
  rw [flattenMap_nil l1 f h1, flattenMap_nil l2 f h2]
  simp

theorem diffGo_nil_of_isEqual (treat : Value → Bool) :
    ∀ (fuel : Nat) (a b : Value) (p : String),
    isEqual a b = true → diffGo treat fuel a b p = [] := by
  intro fuel
  induction fuel with
  | zero => intro a b p h; simp [diffGo, h]
  | succ n ih =>
      intro a b p h
      cases hsa : _isSpecialTypeOrPrimitive treat a with
      | true => simp [diffGo, hsa, h]
      | false =>
      cases hsb : _isSpecialTypeOrPrimitive treat b with
      | true => simp [diffGo, hsa, hsb, h]
      | false =>
      cases a with
      | vnull => simp [_isSpecialTypeOrPrimitive] at hsa
      | vundefined => simp [_isSpecialTypeOrPrimitive] at hsa
      | vbool _ => simp [_isSpecialTypeOrPrimitive] at hsa
      | vnum _ => simp [_isSpecialTypeOrPrimitive] at hsa
      | vstr _ => simp [_isSpecialTypeOrPrimitive] at hsa
      | vdate _ => simp [_isSpecialTypeOrPrimitive] at hsa
      | varr xs =>
          cases b with
          | varr ys =>
              have harr : isEqualList xs ys = true := by simpa [isEqual] using h
              have hlen : xs.length = ys.length := isEqualList_length harr
              simp only [diffGo, hsa, hsb, Bool.or_self, Bool.false_eq_true, if_false,
                hlen, bne_self_eq_false]
              exact flattenMap_nil _ _ (fun i _ =>
                ih (xs.getD i .vundefined) (ys.getD i .vundefined) _ (isEqualList_getD harr i))
          | vobj gs => simp [isEqual] at h
          | vnull => simp [isEqual] at h
          | vundefined => simp [isEqual] at h
          | vbool _ => simp [isEqual] at h
          | vnum _ => simp [isEqual] at h
          | vstr _ => simp [isEqual] at h
          | vdate _ => simp [isEqual] at h
      | vobj fs =>
          cases b with
          | vobj gs =>
              have hlen : (fs.length == gs.length) = true := by
                have := h
                simp only [isEqual, Bool.and_eq_true] at this
                exact this.1
              have hf : isEqualFields fs gs = true := by
                have := h
                simp only [isEqual, Bool.and_eq_true] at this
                exact this.2
              have hleneq : fs.length = gs.length := by simpa using hlen
              have hany : (fs.map Prod.fst).any
                  (fun k => !hasOwnProp (.vobj gs) k) = false := by
                rw [List.any_eq_false]
                intro k hk
                obtain ⟨kv, hkv, hfst⟩ := List.mem_map.mp hk
                obtain ⟨w, hw, _⟩ := isEqualFields_lookup hf
                  (show (k, kv.2) ∈ fs by
                    have : kv = (k, kv.2) := by
                      cases kv; simp at hfst; simp [hfst]
                    exact this ▸ hkv)
                simp [hasOwnProp, hw]
              simp only [diffGo, hsa, hsb, Bool.or_self, Bool.false_eq_true, if_false,
                typeofIsObject, Bool.and_self, if_true, jsKeys, List.length_map,
                hleneq, bne_self_eq_false, hany, Bool.or_self, h, if_true]
          | varr ys => simp [isEqual] at h
          | vnull => simp [isEqual] at h
          | vundefined => simp [isEqual] at h
          | vbool _ => simp [isEqual] at h
          | vnum _ => simp [isEqual] at h
          | vstr _ => simp [isEqual] at h
          | vdate _ => simp [isEqual] at h

theorem isEqualList_middle_false : ∀ (l1 : List Value) {x y : Value} (l2 : List Value),
    isEqual x y = false → isEqualList (l1 ++ x :: l2) (l1 ++ y :: l2) = false := by
  intro l1
  induction l1 with
  | nil => intro x y l2 h; simp [isEqualList, h]
  | cons v l1 ih =>
      intro x y l2 h
      simp only [List.cons_append, isEqualList]
      rw [show l1.append (x :: l2) = l1 ++ x :: l2 from rfl,
        show l1.append (y :: l2) = l1 ++ y :: l2 from rfl, ih l2 h, Bool.and_false]

theorem isEqualFields_middle_false : ∀ (l1 : List (String × Value))
    {k : String} {x y : Value} (l2 : List (String × Value))
    (g : List (String × Value)),
    lookupField g k = some y → isEqual x y = false →
    isEqualFields (l1 ++ (k, x) :: l2) g = false := by
  intro l1
  induction l1 with
  | nil => intro k x y l2 g hl h; simp [isEqualFields, hl, h]
  | cons e l1 ih =>
      intro k x y l2 g hl h
      obtain ⟨k1, v1⟩ := e
      simp only [List.cons_append, isEqualFields]
      rw [show l1.append ((k, x) :: l2) = l1 ++ (k, x) :: l2 from rfl, ih l2 g hl h,
        Bool.and_false]

theorem lookupField_middle_self : ∀ (l1 : List (String × Value)) {k : String}
    (x : Value) (l2 : List (String × Value)),
    (l1.map Prod.fst).contains k = false →
    lookupField (l1 ++ (k, x) :: l2) k = some x := by
  intro l1
  induction l1 with
  | nil => intro k x l2 _; simp [lookupField]
  | cons e l1 ih =>
      intro k x l2 hc
      obtain ⟨k1, v1⟩ := e
      simp only [List.map_cons, List.contains_cons, Bool.or_eq_false_iff] at hc
      have hkk1 : k ≠ k1 := by simpa using hc.1
      have hne : (k1 == k) = false := by
        simp only [beq_eq_false_iff_ne, ne_eq]
        exact fun he => hkk1 he.symm
      simp only [List.cons_append, lookupField, hne, Bool.false_eq_true, if_false]
      exact ih x l2 hc.2

theorem lookupField_middle_ne : ∀ (l1 : List (String × Value)) {k1 k : String}
    (x : Value) (l2 : List (String × Value)), k1 ≠ k →
    lookupField (l1 ++ (k, x) :: l2) k1 = lookupField (l1 ++ l2) k1 := by
  intro l1
  induction l1 with
  | nil =>
      intro k1 k x l2 hne
      have hf : (k == k1) = false := by
        simp only [beq_eq_false_iff_ne, ne_eq]
        exact fun he => hne he.symm
      simp [lookupField, hf]
  | cons e l1 ih =>
      intro k1 k x l2 hne
      obtain ⟨ke, ve⟩ := e
      simp only [List.cons_append, lookupField]
      cases he : (ke == k1) with
      | true => simp [he]
      | false =>
          simp only [Bool.false_eq_true, if_false]
          exact ih x l2 hne

theorem getD_append_middle : ∀ (l1 : List Value) (x : Value) (l2 : List Value),
    (l1 ++ x :: l2).getD l1.length .vundefined = x := by
  intro l1
  induction l1 with
  | nil => intro x l2; simp
  | cons v l1 ih => intro x l2; simpa using ih x l2

theorem getD_append_of_ne : ∀ (l1 : List Value) (x y : Value) (l2 : List Value) (i : Nat),
    i ≠ l1.length →
    (l1 ++ x :: l2).getD i .vundefined = (l1 ++ y :: l2).getD i .vundefined := by
  intro l1
  induction l1 with
  | nil =>
      intro x y l2 i hi
      cases i with
      | zero => exact absurd rfl hi
      | succ j => simp
  | cons v l1 ih =>
      intro x y l2 i hi
      cases i with
      | zero => simp
      | succ j =>
          simp only [List.cons_append, List.getD_cons_succ]
          exact ih x y l2 j (by simpa using hi)

theorem getD_append_wf : ∀ (l1 : List Value) (x : Value) (l2 : List Value) (i : Nat),
    wfList l1 = true → wfList l2 = true → i ≠ l1.length →
    wfValue ((l1 ++ x :: l2).getD i .vundefined) = true := by
  intro l1
  induction l1 with
  | nil =>
      intro x l2 i h1 h2 hi
      cases i with
      | zero => exact absurd rfl hi
      | succ j =>
          simp only [List.nil_append, List.getD_cons_succ]
          exact wfList_getD h2 j
  | cons v l1 ih =>
      intro x l2 i h1 h2 hi
      simp only [wfList, Bool.and_eq_true] at h1
      cases i with
      | zero => simpa using h1.1
      | succ j =>
          simp only [List.cons_append, List.getD_cons_succ]
          exact ih x l2 j h1.2 h2 (by simpa using hi)

theorem isEqual_plug_false (treat : Value → Bool) : ∀ (c : Ctx) (a b : Value),
    ctxOk treat c a b = true → isEqual a b = false →
    isEqual (c.plug a) (c.plug b) = false := by
  intro c
  induction c with
  | hole => intro a b _ hne; exact hne
  | arr pre inner post ih =>
      intro a b hok hne
      simp only [ctxOk, Bool.and_eq_true] at hok
      have hin : isEqual (inner.plug a) (inner.plug b) = false :=
        ih a b hok.2 hne
      simp only [Ctx.plug, isEqual]
      exact isEqualList_middle_false pre post hin
  | obj pre k inner post ih =>
      intro a b hok hne
      simp only [ctxOk, Bool.and_eq_true] at hok
      have hin : isEqual (inner.plug a) (inner.plug b) = false :=
        ih a b hok.2 hne
      have hpre : (pre.map Prod.fst).contains k = false := by
        have := hok.1.1.1.1.2
        simpa using this
      have hlook : lookupField (pre ++ (k, inner.plug b) :: post) k
          = some (inner.plug b) := lookupField_middle_self pre _ post hpre
      simp only [Ctx.plug, isEqual]
      rw [isEqualFields_middle_false pre post _ hlook hin]
      simp

theorem wfFields_append : ∀ {l1 l2 : List (String × Value)},
    wfFields l1 = true → wfFields l2 = true → wfFields (l1 ++ l2) = true := by
  intro l1
  induction l1 with
  | nil => intro l2 _ h2; simpa using h2
  | cons e l1 ih =>
      intro l2 h1 h2
      obtain ⟨k, v⟩ := e
      simp only [wfFields, Bool.and_eq_true] at h1
      simp only [List.cons_append, wfFields, Bool.and_eq_true]
      exact ⟨h1.1, ih h1.2 h2⟩

theorem wf_lookup_getD {fs : List (String × Value)} {k : String}
    (h : wfFields fs = true) : wfValue ((lookupField fs k).getD .vundefined) = true := by
  rcases hl : lookupField fs k with _ | v
  · rfl
  · exact wfFields_mem h (lookupField_mem hl)

theorem diffGo_single_leaf (treat : Value → Bool) : ∀ (c : Ctx) (a b : Value),
    ctxOk treat c a b = true →
    (_isSpecialTypeOrPrimitive treat a || _isSpecialTypeOrPrimitive treat b) = true →
    isEqual a b = false →
    ∀ (fuel : Nat) (p : String),
    diffGo treat fuel (c.plug a) (c.plug b) p =
      [{ path := (c.segs.take fuel).foldl (fun acc seg => acc ++ seg) p,
         oldValue := (c.peel fuel).plug a,
         newValue := (c.peel fuel).plug b }] := by
  intro c
  induction c with
  | hole =>
      intro a b _ hs hne fuel p
      cases fuel with
      | zero => simp [diffGo, Ctx.plug, hne, Ctx.segs, Ctx.peel, cloneDeep_id]
      | succ n => simp [diffGo, Ctx.plug, hs, hne, Ctx.segs, Ctx.peel]
  | arr pre inner post ih =>
      intro a b hok hs hne fuel p
      have hok' := hok
      simp only [ctxOk, Bool.and_eq_true] at hok'
      have hin := hok'.2
      have hpost := hok'.1.2
      have hpre := hok'.1.1.2
      have ht2 := hok'.1.1.1.2
      have ht1 := hok'.1.1.1.1
      have ht1f : treat (.varr (pre ++ Ctx.plug inner a :: post)) = false := by
        simpa using ht1
      have ht2f : treat (.varr (pre ++ Ctx.plug inner b :: post)) = false := by
        simpa using ht2
      have hplugne : isEqual ((Ctx.arr pre inner post).plug a)
          ((Ctx.arr pre inner post).plug b) = false :=
        isEqual_plug_false treat _ a b hok hne
      cases fuel with
      | zero =>
          simp [diffGo, hplugne, cloneDeep_id, Ctx.peel]
      | succ n =>
          have hzero : ∀ i, i ≠ pre.length →
              diffGo treat n ((pre ++ Ctx.plug inner a :: post).getD i .vundefined)
                ((pre ++ Ctx.plug inner b :: post).getD i .vundefined)
                (p ++ "[" ++ toString i ++ "]") = [] := by
            intro i hi
            rw [getD_append_of_ne pre _ (Ctx.plug inner b) post i hi]
            exact diffGo_nil_of_isEqual treat n _ _ _
              (isEqual_refl _ (getD_append_wf pre _ post i hpre hpost hi))
          have hsplit := flattenMap_range_single
            (pre ++ Ctx.plug inner a :: post).length pre.length
            (fun i => diffGo treat n ((pre ++ Ctx.plug inner a :: post).getD i .vundefined)
                ((pre ++ Ctx.plug inner b :: post).getD i .vundefined)
                (p ++ "[" ++ toString i ++ "]"))
            (by simp only [List.length_append, List.length_cons]; omega) hzero
          have hlen2 : (pre ++ Ctx.plug inner b :: post).length
              = (pre ++ Ctx.plug inner a :: post).length := by simp
          simp only [Ctx.plug, diffGo, _isSpecialTypeOrPrimitive, ht1f, ht2f,
            Bool.or_self, Bool.false_eq_true, if_false, hlen2, bne_self_eq_false]
          rw [hsplit]
          beta_reduce
          rw [getD_append_middle pre _ post, getD_append_middle pre _ post]
          rw [ih a b hin hs hne n (p ++ "[" ++ toString pre.length ++ "]")]
          simp [Ctx.segs, Ctx.peel, String.append_assoc]
  | obj pre k inner post ih =>
      intro a b hok hs hne fuel p
      have hok' := hok
      simp only [ctxOk, Bool.and_eq_true] at hok'
      have hin := hok'.2
      have hwpost := hok'.1.2
      have hwpre := hok'.1.1.2
      have hcpost : (post.map Prod.fst).contains k = false := by
        simpa using hok'.1.1.1.2
      have hcpre : (pre.map Prod.fst).contains k = false := by
        simpa using hok'.1.1.1.1.2
      have ht2 := hok'.1.1.1.1.1.2
      have ht1 := hok'.1.1.1.1.1.1
      have ht1f : treat (.vobj (pre ++ (k, Ctx.plug inner a) :: post)) = false := by
        simpa using ht1
      have ht2f : treat (.vobj (pre ++ (k, Ctx.plug inner b) :: post)) = false := by
        simpa using ht2
      have hplugne : isEqual ((Ctx.obj pre k inner post).plug a)
          ((Ctx.obj pre k inner post).plug b) = false :=
        isEqual_plug_false treat _ a b hok hne
      have hplugne2 : isEqual (.vobj (pre ++ (k, Ctx.plug inner a) :: post))
          (.vobj (pre ++ (k, Ctx.plug inner b) :: post)) = false := by
        simpa [Ctx.plug] using hplugne
      have hknotpre : k ∉ pre.map Prod.fst := by simpa using hcpre
      have hknotpost : k ∉ post.map Prod.fst := by simpa using hcpost
      cases fuel with
      | zero =>
          simp [diffGo, hplugne, cloneDeep_id, Ctx.peel]
      | succ n =>
          have hkeys : ((pre ++ (k, Ctx.plug inner a) :: post).map Prod.fst)
              = pre.map Prod.fst ++ k :: post.map Prod.fst := by simp
          have hkeysb : ((pre ++ (k, Ctx.plug inner b) :: post).map Prod.fst)
              = pre.map Prod.fst ++ k :: post.map Prod.fst := by simp
          have hany : ((pre ++ (k, Ctx.plug inner a) :: post).map Prod.fst).any
              (fun key => !hasOwnProp (.vobj (pre ++ (k, Ctx.plug inner b) :: post)) key)
              = false := by
            rw [List.any_eq_false]
            intro key hkey
            have hmem : key ∈ (pre ++ (k, Ctx.plug inner b) :: post).map Prod.fst := by
              rw [hkeysb]
              rw [hkeys] at hkey
              exact hkey
            simp only [hasOwnProp, Bool.not_eq_true', Bool.not_eq_false]
            exact mem_keys_lookupField_isSome hmem
          have hsame : ∀ key, key ≠ k →
              diffGo treat n
                (jsGet (.vobj (pre ++ (k, Ctx.plug inner a) :: post)) key)
                (jsGet (.vobj (pre ++ (k, Ctx.plug inner b) :: post)) key)
                (p ++ "." ++ key) = [] := by
            intro key hkne
            simp only [jsGet]
            rw [lookupField_middle_ne pre _ post hkne, lookupField_middle_ne pre _ post hkne]
            exact diffGo_nil_of_isEqual treat n _ _ _
              (isEqual_refl _ (wf_lookup_getD (wfFields_append hwpre hwpost)))
          have hsplit := flattenMap_append_single (pre.map Prod.fst) (post.map Prod.fst) k
            (fun key => diffGo treat n
                (jsGet (.vobj (pre ++ (k, Ctx.plug inner a) :: post)) key)
                (jsGet (.vobj (pre ++ (k, Ctx.plug inner b) :: post)) key)
                (p ++ "." ++ key))
            (fun key hkey => hsame key (fun he => hknotpre (he ▸ hkey)))
            (fun key hkey => hsame key (fun he => hknotpost (he ▸ hkey)))
          have hgError : jsGet (.vobj (pre ++ (k, Ctx.plug inner a) :: post)) k
              = Ctx.plug inner a := by
            simp only [jsGet, lookupField_middle_self pre _ post hcpre, Option.getD_some]
          have hgErrorB : jsGet (.vobj (pre ++ (k, Ctx.plug inner b) :: post)) k
              = Ctx.plug inner b := by
            simp only [jsGet, lookupField_middle_self pre _ post hcpre, Option.getD_some]
          simp only [Ctx.plug, diffGo, _isSpecialTypeOrPrimitive, ht1f, ht2f,
            Bool.or_self, Bool.false_eq_true, if_false, typeofIsObject, Bool.and_self,
            if_true, jsKeys, hplugne2, hany, Bool.or_false, List.length_map, List.length_append,
            List.length_cons, bne_self_eq_false]
          rw [show ((pre ++ (k, Ctx.plug inner a) :: post).map Prod.fst)
              = pre.map Prod.fst ++ k :: post.map Prod.fst from hkeys]
          rw [hsplit]
          beta_reduce
          rw [hgError, hgErrorB]
          rw [ih a b hin hs hne n (p ++ "." ++ k)]
          simp [Ctx.segs, Ctx.peel, String.append_assoc]

theorem ctx_segs_length : ∀ (c : Ctx), c.segs.length = c.depth := by
  intro c
  induction c with
  | hole => rfl
  | arr pre inner post ih => simp [Ctx.segs, Ctx.depth, ih]
  | obj pre k inner post ih => simp [Ctx.segs, Ctx.depth, ih]

theorem ctx_peel_hole : ∀ (c : Ctx) (m : Nat), c.depth ≤ m → c.peel m = Ctx.hole := by
  intro c
  induction c with
  | hole =>
      intro m _
      cases m with
      | zero => rfl
      | succ n => rfl
  | arr pre inner post ih =>
      intro m hm
      cases m with
      | zero => simp [Ctx.depth] at hm
      | succ n => exact ih n (by simpa [Ctx.depth] using hm)
  | obj pre k inner post ih =>
      intro m hm
      cases m with
      | zero => simp [Ctx.depth] at hm
      | succ n => exact ih n (by simpa [Ctx.depth] using hm)

/-- Claim C2 (confirmed).  Depth aggregation: if the baseline and the live value
differ only at a single leaf sitting at nesting depth `d = c.depth` below the
tracked property (the hole of a well-formed context `c`, filled with atomic,
unequal values `a` and `b`), then for every `maxDepth = m` the differ emits
exactly one change record; its path extends the seed path by exactly
`min d m` segments (`c.segs.take m`), it is the exact leaf sub-path (with the
leaf values themselves) when `d ≤ m`, and the ancestor path at level `m`
(carrying the whole remaining subtrees) when `d >= m`.  Moreover, at the
depth ceiling (`currentDepth >= maxDepth`) a record is emitted iff the two
subtrees are not deeply equal. -/
theorem depth_aggregation :
    (∀ (treat : Value → Bool) (c : Ctx) (a b : Value) (p : String) (m : Nat),
      ctxOk treat c a b = true →
      (_isSpecialTypeOrPrimitive treat a || _isSpecialTypeOrPrimitive treat b) = true →
      isEqual a b = false →
      _diffValues treat (c.plug a) (c.plug b) p m 0 =
        [{ path := (c.segs.take m).foldl (fun acc seg => acc ++ seg) p,
           oldValue := (c.peel m).plug a, newValue := (c.peel m).plug b }] ∧
      (c.segs.take m).length = min c.depth m ∧
      (c.depth ≤ m → c.peel m = Ctx.hole)) ∧
    (∀ (treat : Value → Bool) (oldValue newValue : Value) (p : String) (m d : Nat),
      m ≤ d →
      _diffValues treat oldValue newValue p m d =
        if isEqual oldValue newValue = true then []
        else [{ path := p, oldValue := cloneDeep oldValue,
                newValue := cloneDeep newValue }]) := by
  constructor
  · intro treat c a b p m hok hs hne
    refine ⟨?_, ?_, ctx_peel_hole c m⟩
    · rw [show _diffValues treat (c.plug a) (c.plug b) p m 0
          = diffGo treat m (c.plug a) (c.plug b) p by
        simp [_diffValues]]
      exact diffGo_single_leaf treat c a b hok hs hne m p
    · rw [List.length_take, ctx_segs_length, Nat.min_comm]
  · intro treat oldValue newValue p m d hmd
    have hz : m - d = 0 := by omega
    rw [show _diffValues treat oldValue newValue p m d
        = diffGo treat (m - d) oldValue newValue p from rfl, hz]
    cases he : isEqual oldValue newValue with
    | true => simp [diffGo, he]
    | false => simp [diffGo, he]

/-- Witness for C2: tracking an object `x = \x7b a: 1 \x7d` whose single leaf `a`
changes to `2` (depth 1, maxDepth 3) yields one change at `x.a` with the
leaf values; and with `maxDepth = 0` already exceeded at depth 2, one
aggregated record at the current path. -/
theorem depth_aggregation_witness :
    _diffValues defaultTreatAsValue (.vobj [("a", .vnum 1)]) (.vobj [("a", .vnum 2)])
      "x" 3 0 = [{ path := "x.a", oldValue := .vnum 1, newValue := .vnum 2 }] ∧
    _diffValues defaultTreatAsValue (.vnum 1) (.vnum 2) "x" 0 2 =
      [{ path := "x", oldValue := .vnum 1, newValue := .vnum 2 }] := by
  constructor
  · exact (depth_aggregation.1 defaultTreatAsValue (Ctx.obj [] "a" Ctx.hole [])
      (.vnum 1) (.vnum 2) "x" 3 rfl rfl rfl).1
  · exact depth_aggregation.2 defaultTreatAsValue (.vnum 1) (.vnum 2) "x" 0 2
      (Nat.zero_le 2)

/-- Claim C10 (confirmed).  For every pair of deeply equal values, every path,
every `maxDepth` and every current depth, the recursive differ returns the
empty change list: deep equality is respected at every recursion level, not
only by the entry check in `peekChanges`. -/
theorem differ_deep_equal_empty : ∀ (treat : Value → Bool) (oldValue newValue : Value)
    (p : String) (m d : Nat), isEqual oldValue newValue = true →
    _diffValues treat oldValue newValue p m d = [] := by
  intro treat oldValue newValue p m d h
  exact diffGo_nil_of_isEqual treat (m - d) oldValue newValue p h

/-- Witness for C10: two deeply equal objects with reordered keys produce no
change at depth 1. -/
theorem differ_deep_equal_empty_witness :
    isEqual (.vobj [("a", .vnum 1), ("b", .vnull)])
      (.vobj [("b", .vnull), ("a", .vnum 1)]) = true ∧
    _diffValues defaultTreatAsValue (.vobj [("a", .vnum 1), ("b", .vnull)])
      (.vobj [("b", .vnull), ("a", .vnum 1)]) "p" 3 1 = [] :=
  ⟨rfl, differ_deep_equal_empty defaultTreatAsValue _ _ "p" 3 1 rfl⟩

/-- Claim C4 (confirmed).  A value is classified atomic iff it is `null`, a
scalar (`typeof` not `'object'`), a `Date`, or accepted by the
constructor-supplied predicate, whose default is always-false; and whenever
either compared side is atomic, the differ below the depth ceiling emits
exactly one change at the current path iff the two sides are not deeply
equal (no recursion into fields), and nothing when they are deeply equal. -/
theorem atomic_classification :
    (∀ (treat : Value → Bool) (v : Value),
      _isSpecialTypeOrPrimitive treat v = true ↔
        (v = .vnull ∨ typeofIsObject v = false ∨ (∃ t, v = .vdate t) ∨ treat v = true)) ∧
    (∀ v, defaultTreatAsValue v = false) ∧
    (∀ (treat : Value → Bool) (oldValue newValue : Value) (p : String) (m d : Nat),
      d < m →
      (_isSpecialTypeOrPrimitive treat oldValue
        || _isSpecialTypeOrPrimitive treat newValue) = true →
      _diffValues treat oldValue newValue p m d =
        if isEqual oldValue newValue = true then []
        else [{ path := p, oldValue := oldValue, newValue := newValue }]) := by
  refine ⟨?_, fun _ => rfl, ?_⟩
  · intro treat v
    cases v <;> simp [_isSpecialTypeOrPrimitive, typeofIsObject]
  · intro treat oldValue newValue p m d hdm hsp
    rcases hf : m - d with _ | n
    · omega
    · rw [show _diffValues treat oldValue newValue p m d
          = diffGo treat (m - d) oldValue newValue p from rfl, hf]
      cases he : isEqual oldValue newValue with
      | true => simp [diffGo, hsp, he]
      | false => simp [diffGo, hsp, he]

/-- Witness for C4: a `Date` is atomic, and two unequal dates below the
ceiling yield exactly one change at the current path. -/
theorem atomic_classification_witness :
    _isSpecialTypeOrPrimitive defaultTreatAsValue (.vdate 5) = true ∧
    _diffValues defaultTreatAsValue (.vdate 0) (.vdate 1) "d" 5 0 =
      [{ path := "d", oldValue := .vdate 0, newValue := .vdate 1 }] := by
  constructor
  · exact (atomic_classification.1 defaultTreatAsValue (.vdate 5)).mpr
      (Or.inr (Or.inr (Or.inl ⟨5, rfl⟩)))
  · rw [atomic_classification.2.2 defaultTreatAsValue (.vdate 0) (.vdate 1) "d" 5 0
      (by omega) rfl]
    rfl

/-- Claim C5 (code bug, evaluated at the failing inputs).  The source comment
on the final fallback says mismatched shapes such as array-versus-object
reach it and yield one aggregated change, and the spec states the same;
but since `typeof [] === 'object'`, an array/object pair instead enters the
keyed-record branch.  With baseline `[10]` and live `\x7b "0": 20 \x7d`
(matching index key sets) the differ recurses and reports the change at
`p.0` instead of one aggregated change at `p`; with live `\x7b "0": 10 \x7d` it
reports no change at all even though the two values are not deeply equal. -/
theorem mixed_shape_recursion_eval :
    _diffValues defaultTreatAsValue (.varr [.vnum 10]) (.vobj [("0", .vnum 20)]) "p" 1 0 =
      [{ path := "p.0", oldValue := .vnum 10, newValue := .vnum 20 }] ∧
    _diffValues defaultTreatAsValue (.varr [.vnum 10]) (.vobj [("0", .vnum 10)]) "p" 2 0 =
      [] ∧
    isEqual (.varr [.vnum 10]) (.vobj [("0", .vnum 10)]) = false :=
  ⟨rfl, rfl, rfl⟩

/-- Claim C1 (code bug, evaluated at the failing input).  `startTrack` reads
`obj[property]` (source line 134) before and outside the `try` that guards
only `cloneDeep`, so an owner whose tracked property getter throws makes
`startTrack` propagate the exception instead of returning normally with no
entry created — contradicting the spec's error-handling design and the
repo's own test `should handle property access error during startTrack
gracefully`. -/
theorem startTrack_throwing_getter_propagates :
    startTrackE envThrowingGetter ⟨[]⟩ 0 "prop" 3 = .error () := rfl

/-- Claim C3 (confirmed).  Structural aggregation: below the depth ceiling,
with neither side atomic, two sequential collections of different lengths —
or two keyed records whose key sets differ in size or membership — produce
exactly one change at the containing value's own path whose sides are deep
copies of the whole containing values, with no recursion into elements; and
when lengths (resp. key sets) match the result is exactly the concatenation
of the element-wise recursion at `path[i]` (resp. per-key recursion at
`path.key`) with depth `d + 1`. -/
theorem structural_aggregation :
    (∀ (treat : Value → Bool) (oldItems newItems : List Value) (p : String) (m d : Nat),
      d < m →
      _isSpecialTypeOrPrimitive treat (.varr oldItems) = false →
      _isSpecialTypeOrPrimitive treat (.varr newItems) = false →
      oldItems.length ≠ newItems.length →
      _diffValues treat (.varr oldItems) (.varr newItems) p m d =
        [{ path := p, oldValue := cloneDeep (.varr oldItems),
           newValue := cloneDeep (.varr newItems) }]) ∧
    (∀ (treat : Value → Bool) (oldItems newItems : List Value) (p : String) (m d : Nat),
      d < m →
      _isSpecialTypeOrPrimitive treat (.varr oldItems) = false →
      _isSpecialTypeOrPrimitive treat (.varr newItems) = false →
      oldItems.length = newItems.length →
      _diffValues treat (.varr oldItems) (.varr newItems) p m d =
        ((List.range oldItems.length).map (fun i =>
          _diffValues treat (oldItems.getD i .vundefined) (newItems.getD i .vundefined)
            (p ++ "[" ++ toString i ++ "]") m (d + 1))).flatten) ∧
    (∀ (treat : Value → Bool) (fs gs : List (String × Value)) (p : String) (m d : Nat),
      d < m →
      _isSpecialTypeOrPrimitive treat (.vobj fs) = false →
      _isSpecialTypeOrPrimitive treat (.vobj gs) = false →
      ((fs.map Prod.fst).length ≠ (gs.map Prod.fst).length ∨
        (∃ k ∈ fs.map Prod.fst, hasOwnProp (.vobj gs) k = false)) →
      _diffValues treat (.vobj fs) (.vobj gs) p m d =
        [{ path := p, oldValue := cloneDeep (.vobj fs),
           newValue := cloneDeep (.vobj gs) }]) ∧
    (∀ (treat : Value → Bool) (fs gs : List (String × Value)) (p : String) (m d : Nat),
      d < m →
      _isSpecialTypeOrPrimitive treat (.vobj fs) = false →
      _isSpecialTypeOrPrimitive treat (.vobj gs) = false →
      (fs.map Prod.fst).length = (gs.map Prod.fst).length →
      (∀ k ∈ fs.map Prod.fst, hasOwnProp (.vobj gs) k = true) →
      _diffValues treat (.vobj fs) (.vobj gs) p m d =
        ((fs.map Prod.fst).map (fun key =>
          _diffValues treat (jsGet (.vobj fs) key) (jsGet (.vobj gs) key)
            (p ++ "." ++ key) m (d + 1))).flatten) := by
  refine ⟨?_, ?_, ?_, ?_⟩
  · intro treat oldItems newItems p m d hdm hso hsn hlen
    rcases hf : m - d with _ | n
    · omega
    · have hbne : (oldItems.length != newItems.length) = true := by simpa using hlen
      rw [show _diffValues treat (.varr oldItems) (.varr newItems) p m d
          = diffGo treat (m - d) (.varr oldItems) (.varr newItems) p from rfl, hf]
      simp [diffGo, hso, hsn, hbne]
  · intro treat oldItems newItems p m d hdm hso hsn hlen
    rcases hf : m - d with _ | n
    · omega
    · have hcf : m - (d + 1) = n := by omega
      have hbne : (oldItems.length != newItems.length) = false := by simpa using hlen
      rw [show _diffValues treat (.varr oldItems) (.varr newItems) p m d
          = diffGo treat (m - d) (.varr oldItems) (.varr newItems) p from rfl, hf]
      simp only [diffGo, hso, hsn, Bool.or_self, Bool.false_eq_true, if_false, hbne,
        _diffValues, hcf]
  · intro treat fs gs p m d hdm hso hsn hcond
    rcases hf : m - d with _ | n
    · omega
    · have hor : (((fs.map Prod.fst).length != (gs.map Prod.fst).length)
          || ((fs.map Prod.fst).any fun k => !hasOwnProp (.vobj gs) k)) = true := by
        rcases hcond with h | ⟨k, hk, hfo⟩
        · have hb : ((fs.map Prod.fst).length != (gs.map Prod.fst).length) = true := by
            simpa using h
          simp only [hb, Bool.true_or]
        · have hb : ((fs.map Prod.fst).any fun k => !hasOwnProp (.vobj gs) k) = true :=
            List.any_eq_true.mpr ⟨k, hk, by simp [hfo]⟩
          simp only [hb, Bool.or_true]
      rw [show _diffValues treat (.vobj fs) (.vobj gs) p m d
          = diffGo treat (m - d) (.vobj fs) (.vobj gs) p from rfl, hf]
      simp only [diffGo, hso, hsn, Bool.or_self, Bool.false_eq_true, if_false,
        typeofIsObject, Bool.and_self, if_true, jsKeys, hor]
  · intro treat fs gs p m d hdm hso hsn hklen hmem
    rcases hf : m - d with _ | n
    · omega
    · have hcf : m - (d + 1) = n := by omega
      have hbne : (((fs.map Prod.fst).length != (gs.map Prod.fst).length)) = false := by
        simpa using hklen
      have hany : ((fs.map Prod.fst).any fun k => !hasOwnProp (.vobj gs) k) = false := by
        rw [List.any_eq_false]
        intro k hk
        simp [hmem k hk]
      rw [show _diffValues treat (.vobj fs) (.vobj gs) p m d
          = diffGo treat (m - d) (.vobj fs) (.vobj gs) p from rfl, hf]
      simp only [diffGo, hso, hsn, Bool.or_self, Bool.false_eq_true, if_false,
        typeofIsObject, Bool.and_self, if_true, jsKeys, hbne, hany, Bool.or_self,
        _diffValues, hcf]
      cases he : isEqual (.vobj fs) (.vobj gs) with
      | false => simp
      | true =>
          have hfields : isEqualFields fs gs = true := by
            have := he
            simp only [isEqual, Bool.and_eq_true] at this
            exact this.2
          simp only [if_true, he]
          refine (flattenMap_nil _ _ ?_).symm
          intro key hk
          rcases hl : lookupField fs key with _ | v1
          · have := mem_keys_lookupField_isSome hk
            rw [hl] at this
            simp at this
          · obtain ⟨w, hw, hew⟩ := isEqualFields_lookup hfields (lookupField_mem hl)
            simp only [jsGet, hl, hw, Option.getD_some]
            exact diffGo_nil_of_isEqual treat n v1 w _ hew

/-- Witness for C3: a shrunk array aggregates at `tags`; a same-length array
diffs per index at `t[0]`; records with disjoint keys aggregate at `o`;
records with equal key sets diff per key at `o.a`. -/
theorem structural_aggregation_witness :
    _diffValues defaultTreatAsValue (.varr [.vnum 1]) (.varr []) "tags" 3 0 =
      [{ path := "tags", oldValue := .varr [.vnum 1], newValue := .varr [] }] ∧
    _diffValues defaultTreatAsValue (.varr [.vnum 1]) (.varr [.vnum 2]) "t" 3 0 =
      [{ path := "t[0]", oldValue := .vnum 1, newValue := .vnum 2 }] ∧
    _diffValues defaultTreatAsValue (.vobj [("a", .vnum 1)]) (.vobj [("b", .vnum 1)])
      "o" 3 0 =
      [{ path := "o", oldValue := .vobj [("a", .vnum 1)],
         newValue := .vobj [("b", .vnum 1)] }] ∧
    _diffValues defaultTreatAsValue (.vobj [("a", .vnum 1)]) (.vobj [("a", .vnum 2)])
      "o" 3 0 =
      [{ path := "o.a", oldValue := .vnum 1, newValue := .vnum 2 }] := by
  refine ⟨?_, ?_, ?_, ?_⟩
  · rw [structural_aggregation.1 defaultTreatAsValue [.vnum 1] [] "tags" 3 0
      (by omega) rfl rfl (by simp)]
    rfl
  · rw [structural_aggregation.2.1 defaultTreatAsValue [.vnum 1] [.vnum 2] "t" 3 0
      (by omega) rfl rfl (by simp)]
    rfl
  · rw [structural_aggregation.2.2.1 defaultTreatAsValue [("a", .vnum 1)]
      [("b", .vnum 1)] "o" 3 0 (by omega) rfl rfl
      (Or.inr ⟨"a", by simp, rfl⟩)]
    rfl
  · rw [structural_aggregation.2.2.2 defaultTreatAsValue [("a", .vnum 1)]
      [("a", .vnum 2)] "o" 3 0 (by omega) rfl rfl (by simp)
      (by intro k hk; simp at hk; subst hk; rfl)]
    rfl

theorem peekLoop_stable (env : Env) : ∀ (l : Registry) (cs : List TChange) (kept : Registry),
    peekLoop env l = (cs, kept) → peekLoop env kept = (cs, kept) := by
  intro l
  induction l with
  | nil =>
      intro cs kept h
      simp only [peekLoop] at h
      injection h with h1 h2
      subst h1
      subst h2
      rfl
  | cons e rest ih =>
      intro cs kept h
      obtain ⟨k, info⟩ := e
      rcases hr : peekLoop env rest with ⟨rc, rk⟩
      have ihr := ih rc rk hr
      rcases hd : derefRef env info.parentObjRef with _ | pobj
      · simp only [peekLoop, hr, hd] at h
        injection h with h1 h2
        subst h1
        subst h2
        exact ihr
      · rcases hread : env.readProp pobj info.property with e0 | v
        · simp only [peekLoop, hr, hd, hread] at h
          injection h with h1 h2
          subst h1
          subst h2
          simp only [peekLoop, ihr, hd, hread]
        · cases heq : (!isEqual v info.originalValueSnapshot) with
          | true =>
              simp only [peekLoop, hr, hd, hread, heq, if_true] at h
              injection h with h1 h2
              subst h1
              subst h2
              simp only [peekLoop, ihr, hd, hread, heq, if_true]
          | false =>
              simp only [peekLoop, hr, hd, hread, heq, Bool.false_eq_true, if_false] at h
              injection h with h1 h2
              subst h1
              subst h2
              simp only [peekLoop, ihr, hd, hread, heq, Bool.false_eq_true, if_false]

theorem peekLoop_kept_sublist (env : Env) : ∀ (l : Registry),
    (peekLoop env l).2.Sublist l := by
  intro l
  induction l with
  | nil => simp [peekLoop]
  | cons e rest ih =>
      obtain ⟨k, info⟩ := e
      rcases hr : peekLoop env rest with ⟨rc, rk⟩
      rw [hr] at ih
      rcases hd : derefRef env info.parentObjRef with _ | pobj
      · simp only [peekLoop, hr, hd]
        exact ih.cons _
      · rcases hread : env.readProp pobj info.property with e0 | v
        · simp only [peekLoop, hr, hd, hread]
          exact ih.cons₂ _
        · cases heq : (!isEqual v info.originalValueSnapshot) with
          | true =>
              simp only [peekLoop, hr, hd, hread, heq, if_true]
              exact ih.cons₂ _
          | false =>
              simp only [peekLoop, hr, hd, hread, heq, Bool.false_eq_true, if_false]
              exact ih.cons₂ _

/-- Claim C6 (confirmed).  `peekChanges` is idempotent and read-only: the
surviving registry after a call is a sublist of the original (every kept
entry, baseline included, is untouched; only entries whose owner is gone are
dropped), and a second call with the same world returns the identical
change list and registry. -/
theorem peek_idempotent_readonly : ∀ (env : Env) (s : ChangesTracker),
    (peekChanges env (peekChanges env s).2).1 = (peekChanges env s).1 ∧
    (peekChanges env (peekChanges env s).2).2 = (peekChanges env s).2 ∧
    (peekChanges env s).2.trackedProperties.Sublist s.trackedProperties := by
  intro env s
  rcases hp : peekLoop env s.trackedProperties with ⟨cs, kept⟩
  have hstable := peekLoop_stable env s.trackedProperties cs kept hp
  have hsub := peekLoop_kept_sublist env s.trackedProperties
  rw [hp] at hsub
  simp only [peekChanges, hp, hstable]
  exact ⟨trivial, trivial, hsub⟩

/-- Claim C7 (confirmed).  For a tracker state whose owners are all alive and
whose property reads and deep copies all succeed (on well-formed values),
`updateSnapshots` followed immediately by `peekChanges` in the same world
returns the empty change list. -/
theorem commit_then_peek_empty : ∀ (env : Env) (s : ChangesTracker),
    (∀ e ∈ s.trackedProperties, env.alive e.2.parentObjRef = true ∧
      ∃ v, env.readProp e.2.parentObjRef e.2.property = .ok v ∧
        env.cloneOk v = true ∧ wfValue v = true) →
    (peekChanges env (updateSnapshots env s)).1 = [] := by
  intro env s hall
  suffices h : ∀ (l : Registry),
      (∀ e ∈ l, env.alive e.2.parentObjRef = true ∧
        ∃ v, env.readProp e.2.parentObjRef e.2.property = .ok v ∧
          env.cloneOk v = true ∧ wfValue v = true) →
      (peekLoop env (updateLoop env l)).1 = [] by
    have := h s.trackedProperties hall
    rcases hp : peekLoop env (updateLoop env s.trackedProperties) with ⟨cs, kept⟩
    simp only [peekChanges, updateSnapshots, hp]
    rw [hp] at this
    exact this
  intro l
  induction l with
  | nil => intro _; rfl
  | cons e rest ih =>
      intro hall2
      obtain ⟨k, info⟩ := e
      obtain ⟨halive, v, hread, hclone, hwf⟩ := hall2 (k, info) (List.mem_cons_self _ _)
      have hd : derefRef env info.parentObjRef = some info.parentObjRef := by
        simp [derefRef, halive]
      have hcl : cloneDeepE env v = .ok (cloneDeep v) := by
        simp [cloneDeepE, hclone]
      have hrest := ih (fun e he => hall2 e (List.mem_cons_of_mem _ he))
      rcases hp : peekLoop env (updateLoop env rest) with ⟨rc, rk⟩
      rw [hp] at hrest
      have hiseq : isEqual v (cloneDeep v) = true := by
        rw [cloneDeep_id]
        exact isEqual_refl v hwf
      simp only [updateLoop, hd, hread, hcl, peekLoop, hp, hiseq, Bool.not_true,
        Bool.false_eq_true, if_false]
      exact hrest

/-- Witness for C7: one live entry whose read yields `5` and whose clone
succeeds; after committing, peeking reports nothing. -/
theorem commit_then_peek_empty_witness :
    (peekChanges (envConstRead (.vnum 5))
      (updateSnapshots (envConstRead (.vnum 5))
        ⟨[("Object.x", { parentObjRef := 0, property := "x",
                         originalValueSnapshot := .vnum 0, maxDepth := 3 })]⟩)).1 = [] := by
  refine commit_then_peek_empty (envConstRead (.vnum 5)) _ ?_
  intro e he
  simp only [List.mem_singleton] at he
  subst he
  exact ⟨rfl, .vnum 5, rfl, rfl, rfl⟩

theorem mapDelete_sublist : ∀ (l : Registry) (k : String), (mapDelete l k).Sublist l := by
  intro l k
  induction l with
  | nil => simp [mapDelete]
  | cons e rest ih =>
      cases he : (e.1 == k) with
      | true =>
          simp only [mapDelete, he, if_true]
          exact List.sublist_cons_self _ _
      | false =>
          simp only [mapDelete, he, Bool.false_eq_true, if_false]
          exact ih.cons₂ _

theorem mapSet_keys_mem : ∀ (l : Registry) (k : String) (v : TrackedPropertyInfo)
    (x : String), x ∈ (mapSet l k v).map Prod.fst ↔ (x = k ∨ x ∈ l.map Prod.fst) := by
  intro l k v
  induction l with
  | nil => intro x; simp [mapSet]
  | cons e rest ih =>
      intro x
      cases he : (e.1 == k) with
      | true =>
          have hek : e.1 = k := by simpa using he
          simp only [mapSet, he, if_true, List.map_cons, List.mem_cons]
          rw [hek]
          tauto
      | false =>
          simp only [mapSet, he, Bool.false_eq_true, if_false, List.map_cons,
            List.mem_cons, ih x]
          tauto

theorem mapSet_keys_nodup : ∀ (l : Registry) (k : String) (v : TrackedPropertyInfo),
    (l.map Prod.fst).Nodup → ((mapSet l k v).map Prod.fst).Nodup := by
  intro l k v
  induction l with
  | nil => intro _; simp [mapSet]
  | cons e rest ih =>
      intro hnd
      simp only [List.map_cons, List.nodup_cons] at hnd
      cases he : (e.1 == k) with
      | true =>
          have hek : e.1 = k := by simpa using he
          simp only [mapSet, he, if_true, List.map_cons, List.nodup_cons]
          exact ⟨hek ▸ hnd.1, hnd.2⟩
      | false =>
          have hek : e.1 ≠ k := by simpa using he
          simp only [mapSet, he, Bool.false_eq_true, if_false, List.map_cons,
            List.nodup_cons]
          refine ⟨?_, ih hnd.2⟩
          intro hmem
          rcases (mapSet_keys_mem rest k v e.1).mp hmem with h | h
          · exact hek h
          · exact hnd.1 h

theorem mapGet_mapSet_self : ∀ (l : Registry) (k : String) (v : TrackedPropertyInfo),
    mapGet (mapSet l k v) k = some v := by
  intro l k v
  induction l with
  | nil => simp [mapSet, mapGet]
  | cons e rest ih =>
      cases he : (e.1 == k) with
      | true => simp [mapSet, he, mapGet]
      | false =>
          simp only [mapSet, he, Bool.false_eq_true, if_false, mapGet]
          exact ih

theorem updateLoop_keys_sublist (env : Env) : ∀ (l : Registry),
    ((updateLoop env l).map Prod.fst).Sublist (l.map Prod.fst) := by
  intro l
  induction l with
  | nil => simp [updateLoop]
  | cons e rest ih =>
      obtain ⟨k, info⟩ := e
      rcases hd : derefRef env info.parentObjRef with _ | pobj
      · simp only [updateLoop, hd]
        exact ih.cons _
      · rcases hread : env.readProp pobj info.property with e0 | v
        · simp only [updateLoop, hd, hread, List.map_cons]
          exact ih.cons₂ _
        · rcases hcl : cloneDeepE env v with e1 | snap
          · simp only [updateLoop, hd, hread, hcl]
            exact ih.cons _
          · simp only [updateLoop, hd, hread, hcl, List.map_cons]
            exact ih.cons₂ _

/-- Claim C8 (confirmed).  In every reachable state the registry holds at most
one entry per composite `(owner-type-name).(property-name)` key — each of
the five public operations preserves distinctness of keys — and a
`startTrack` for a key that already has an entry (same or different owner
instance of that type) replaces the prior entry and its baseline with a
fresh snapshot of the new owner's live value. -/
theorem registry_single_entry :
    (∀ (env : Env) (s : ChangesTracker) (obj : Nat) (property : String)
        (maxDepth : Nat) (s' : ChangesTracker) (v : Value), KeysNodup s →
        startTrackE env s obj property maxDepth = .ok (s', v) → KeysNodup s') ∧
    (∀ (env : Env) (s : ChangesTracker), KeysNodup s →
        KeysNodup (peekChanges env s).2) ∧
    (∀ (env : Env) (s : ChangesTracker), KeysNodup s →
        KeysNodup (updateSnapshots env s)) ∧
    (∀ (env : Env) (s : ChangesTracker) (obj : Nat) (property : String),
        KeysNodup s → KeysNodup (stopTrack env s obj property)) ∧
    (∀ (s : ChangesTracker), KeysNodup (stopAllTracks s)) ∧
    (∀ (env : Env) (s : ChangesTracker) (obj : Nat) (property : String)
        (maxDepth : Nat) (oldInfo : TrackedPropertyInfo) (v : Value),
        mapGet s.trackedProperties (env.typeName obj ++ "." ++ property) = some oldInfo →
        env.readProp obj property = .ok v → env.cloneOk v = true →
        ∃ s', startTrackE env s obj property maxDepth = .ok (s', v) ∧
          mapGet s'.trackedProperties (env.typeName obj ++ "." ++ property) =
            some { parentObjRef := obj, property := property,
                   originalValueSnapshot := cloneDeep v, maxDepth := maxDepth }) := by
  refine ⟨?_, ?_, ?_, ?_, ?_, ?_⟩
  · intro env s obj property maxDepth s' v hnd hok
    rcases hr : env.readProp obj property with e0 | cv
    · simp only [startTrackE, hr] at hok
      exact Except.noConfusion hok
    · simp only [startTrackE, hr] at hok
      have hdel : ((mapDelete s.trackedProperties
          (env.typeName obj ++ "." ++ property)).map Prod.fst).Nodup :=
        hnd.sublist ((mapDelete_sublist _ _).map Prod.fst)
      rcases hget : mapGet s.trackedProperties (env.typeName obj ++ "." ++ property)
        with _ | oldInfo
      · simp only [hget] at hok
        rcases hcl : cloneDeepE env cv with e1 | snap
        · simp only [hcl] at hok
          injection hok with hpair
          injection hpair with h1 h2
          subst h1
          exact hnd
        · simp only [hcl] at hok
          injection hok with hpair
          injection hpair with h1 h2
          subst h1
          exact mapSet_keys_nodup _ _ _ hnd
      · simp only [hget, ite_self] at hok
        rcases hcl : cloneDeepE env cv with e1 | snap
        · simp only [hcl] at hok
          injection hok with hpair
          injection hpair with h1 h2
          subst h1
          exact hdel
        · simp only [hcl] at hok
          injection hok with hpair
          injection hpair with h1 h2
          subst h1
          exact mapSet_keys_nodup _ _ _ hdel
  · intro env s hnd
    exact hnd.sublist ((peekLoop_kept_sublist env s.trackedProperties).map Prod.fst)
  · intro env s hnd
    exact hnd.sublist (updateLoop_keys_sublist env s.trackedProperties)
  · intro env s obj property hnd
    rcases hget : mapGet s.trackedProperties (env.typeName obj ++ "." ++ property)
      with _ | info
    · simp only [stopTrack, hget]
      exact hnd
    · by_cases hd : derefRef env info.parentObjRef = some obj
      · simp only [stopTrack, hget]
        rw [if_pos hd]
        exact hnd.sublist ((mapDelete_sublist _ _).map Prod.fst)
      · simp only [stopTrack, hget]
        rw [if_neg hd]
        exact hnd
  · intro s
    simp [KeysNodup, stopAllTracks]
  · intro env s obj property maxDepth oldInfo v hget hread hclone
    refine ⟨⟨mapSet (mapDelete s.trackedProperties (env.typeName obj ++ "." ++ property))
        (env.typeName obj ++ "." ++ property)
        { parentObjRef := obj, property := property,
          originalValueSnapshot := cloneDeep v, maxDepth := maxDepth }⟩, ?_, ?_⟩
    · simp only [startTrackE, hread, hget, ite_self, cloneDeepE, hclone, if_pos]
    · exact mapGet_mapSet_self _ _ _

/-- Witness for C8: a registry holding `Object.x` for instance `0`; a fresh
`startTrack` for instance `1` of the same type replaces the entry (one entry
survives, with the new owner, snapshot and depth), and the keys of the
result are distinct. -/
theorem registry_single_entry_witness :
    KeysNodup ⟨[("Object.x", sampleInfoX 1 (.vnum 5) 2)]⟩ ∧
    (∃ s', startTrackE (envConstRead (.vnum 5))
        ⟨[("Object.x", sampleInfoX 0 (.vnum 0) 3)]⟩ 1 "x" 2 = .ok (s', .vnum 5) ∧
      mapGet s'.trackedProperties
          ((envConstRead (.vnum 5)).typeName 1 ++ "." ++ "x") =
        some { parentObjRef := 1, property := "x",
               originalValueSnapshot := cloneDeep (.vnum 5), maxDepth := 2 }) := by
  constructor
  · exact registry_single_entry.1 (envConstRead (.vnum 5))
      ⟨[("Object.x", sampleInfoX 0 (.vnum 0) 3)]⟩ 1 "x" 2
      ⟨[("Object.x", sampleInfoX 1 (.vnum 5) 2)]⟩ (.vnum 5)
      (by simp [KeysNodup]) rfl
  · exact registry_single_entry.2.2.2.2.2 (envConstRead (.vnum 5))
      ⟨[("Object.x", sampleInfoX 0 (.vnum 0) 3)]⟩ 1 "x" 2
      (sampleInfoX 0 (.vnum 0) 3) (.vnum 5) rfl rfl rfl

/-- Claim C9 (confirmed).  `stopTrack(owner, property)` deletes the entry under
the composite key iff the entry exists and its weak reference dereferences
to the very owner instance passed in; when the key is absent, the reference
is gone, or it resolves to a different instance, the registry is returned
completely unchanged. -/
theorem stopTrack_characterization : ∀ (env : Env) (s : ChangesTracker) (obj : Nat)
    (property : String),
    (∀ info, mapGet s.trackedProperties (env.typeName obj ++ "." ++ property)
        = some info →
      derefRef env info.parentObjRef = some obj →
      stopTrack env s obj property =
        ⟨mapDelete s.trackedProperties (env.typeName obj ++ "." ++ property)⟩) ∧
    (mapGet s.trackedProperties (env.typeName obj ++ "." ++ property) = none →
      stopTrack env s obj property = s) ∧
    (∀ info, mapGet s.trackedProperties (env.typeName obj ++ "." ++ property)
        = some info →
      derefRef env info.parentObjRef ≠ some obj →
      stopTrack env s obj property = s) := by
  intro env s obj property
  refine ⟨?_, ?_, ?_⟩
  · intro info hget hd
    simp only [stopTrack, hget]
    rw [if_pos hd]
  · intro hget
    simp only [stopTrack, hget]
  · intro info hget hd
    simp only [stopTrack, hget]
    rw [if_neg hd]

/-- Witness for C9: stopping with the registered instance `7` removes the
entry; stopping with a different instance `8` of the same type leaves the
registry unchanged. -/
theorem stopTrack_characterization_witness :
    stopTrack (envConstRead (.vnum 1))
      ⟨[("Object.x", sampleInfoX 7 (.vnum 0) 3)]⟩ 7 "x" = ⟨[]⟩ ∧
    stopTrack (envConstRead (.vnum 1))
      ⟨[("Object.x", sampleInfoX 7 (.vnum 0) 3)]⟩ 8 "x" =
      ⟨[("Object.x", sampleInfoX 7 (.vnum 0) 3)]⟩ := by
  constructor
  · exact (stopTrack_characterization (envConstRead (.vnum 1)) _ 7 "x").1 _ rfl rfl
  · exact (stopTrack_characterization (envConstRead (.vnum 1)) _ 8 "x").2.2 _ rfl
      (by decide)
